import Mathlib

/-!
Verification of the metlink-pid page codec and message framing layer.

The development shallowly embeds `src/index.mjs` (classes `PageAnimate`, `Page`,
`PingMessage`, `ResponseMessage`): JavaScript strings become `List Char`,
byte buffers become `List Nat` (with the `Buffer.from` coercion applied
explicitly), and functions that throw become `Except`-valued functions.
-/

/-- The character set of the base encoding string in `Page._TEXT_ENCODING`:
`" !#$&'()*+,-./0123456789:;<=>?ABCDEFGHIJKLMNOPQRSTUVWXYZ\abcdefghijklmnopqrstuvwxyz"`.
The apostrophe (code 39) and the backslash (code 92) are written via `Char.ofNat`. -/
def BASE_CHARS : List Char :=
  " !#$&".data ++ [Char.ofNat 39] ++ "()*+,-./0123456789:;<=>?ABCDEFGHIJKLMNOPQRSTUVWXYZ".data
    ++ [Char.ofNat 92] ++ "abcdefghijklmnopqrstuvwxyz".data

/-- `Page._TEXT_ENCODING`: each base character maps to its own code point,
plus six Unicode glyphs mapped to high display bytes. -/
def TEXT_ENCODING (c : Char) : Option Nat :=
  if c ∈ BASE_CHARS then some c.toNat
  else if c = '·' then some 0x8F
  else if c = '•' then some 0xD3
  else if c = '─' then some 0x97
  else if c = '━' then some 0xD2
  else if c = '█' then some 0x5F
  else if c = '▔' then some 0xA3
  else none

/-- All characters with an entry in `Page._TEXT_ENCODING`, in the object's key order. -/
def PERMITTED_CHARS : List Char :=
  BASE_CHARS ++ ['·', '•', '─', '━', '█', '▔']

/-- `Page._TEXT_DECODING`: the inversion of `_TEXT_ENCODING` (no two characters share a
byte, so the object-spread construction order is immaterial) extended with the three
decode-only bytes `0x98 → ─` and `0xA4`, `0xA5 → ▔`. -/
def TEXT_DECODING (b : Nat) : Option Char :=
  match PERMITTED_CHARS.find? (fun c => decide (TEXT_ENCODING c = some b)) with
  | some c => some c
  | none =>
    if b = 0x98 then some '─'
    else if b = 0xA4 then some '▔'
    else if b = 0xA5 then some '▔'
    else none

/-- `Page.encodeText`: the loop writes `bytesOut[i]` only for characters present in the
table, leaving array holes (`none`) at unsupported characters.  The source's failure
guard `badChars.length > 0` reads property `length` of a JavaScript `Set`, which is
`undefined` (a `Set` has `size`), and `undefined > 0` is `false`, so the guard never
fires and the function always returns; hence the embedding is total. -/
def Page.encodeText (text : List Char) : List (Option Nat) :=
  text.map TEXT_ENCODING

/-- The `badChars` set accumulated by the `Page.encodeText` loop: the distinct
characters of the input absent from `_TEXT_ENCODING`, in insertion order. -/
def encodeBadChars (text : List Char) : List Char :=
  text.foldl (fun s c => if TEXT_ENCODING c = none then (if c ∈ s then s else s ++ [c]) else s) []

/-- `Page.decodeText`: appends the decoded character of each byte, or U+FFFD
for a byte with no `_TEXT_DECODING` entry.  Never throws. -/
def Page.decodeText (bytes : List Nat) : List Char :=
  bytes.foldl (fun text b =>
    text ++ (match TEXT_DECODING b with
             | some c => [c]
             | none => [Char.ofNat 0xFFFD])) []

/-- The `PageAnimate` class: a wrapper around the animation tag string;
the constructor upper-cases its argument. -/
structure PageAnimate where
  animate : String
deriving DecidableEq

/-- The `PageAnimate` constructor: `this.#animate = type.toUpperCase()`
(`String.toUpperCase` upper-cases character by character). -/
def PageAnimate.ofStr (type : String) : PageAnimate :=
  ⟨String.mk (type.data.map Char.toUpper)⟩

/-- `PageAnimate.NONE`. -/
def PageAnimate.NONE : PageAnimate := PageAnimate.ofStr "N"

/-- `PageAnimate.VSCROLL`. -/
def PageAnimate.VSCROLL : PageAnimate := PageAnimate.ofStr "V"

/-- `PageAnimate.HSCROLL`. -/
def PageAnimate.HSCROLL : PageAnimate := PageAnimate.ofStr "H"

/-- The `Page` class: animation, delay and text.  The constructor stores its three
arguments without any validation. -/
structure Page where
  animate : PageAnimate
  delay : Nat
  text : List Char
deriving DecidableEq

/-- `Page._ANIMATE_ENCODING`, keyed by the animation's string value. -/
def ANIMATE_ENCODING (a : PageAnimate) : Option Nat :=
  if a = PageAnimate.NONE then some 0x00
  else if a = PageAnimate.VSCROLL then some 0x1D
  else if a = PageAnimate.HSCROLL then some 0x2F
  else none

/-- `Page._ANIMATE_DECODING`: protocol byte back to the animation value. -/
def ANIMATE_DECODING (b : Nat) : Option PageAnimate :=
  if b = 0x00 then some PageAnimate.NONE
  else if b = 0x1D then some PageAnimate.VSCROLL
  else if b = 0x2F then some PageAnimate.HSCROLL
  else none

/-- Decimal value of a digit run, as `parseInt` computes it on an all-digit string. -/
def digitsToNat (ds : List Char) : Nat :=
  ds.foldl (fun acc c => acc * 10 + (c.toNat - 48)) 0

/-- The no-letter alternative of `Page._STR_RE`'s optional prefix group
`(?:(?<animate>[A-Za-z]?)(?<delay>\d*)\^)?`: a digit run followed by a caret.
Returns the animate group (absent), the delay group and the text group. -/
def reNoLetter (s : List Char) : Option (Option Char × List Char × List Char) :=
  match s.dropWhile Char.isDigit with
  | '^' :: t => some (none, s.takeWhile Char.isDigit, t)
  | _ => none

/-- Matching `Page._STR_RE` against `s`: the regex engine first tries to take one
letter for the animate group, backtracking to the letterless alternative when no
caret follows the greedy digit run; the digit run itself can only succeed at its
maximal extent since a shorter run leaves a digit, not a caret, as the next
character.  `none` means the optional prefix group matched nothing (the whole
input is the text group). -/
def reMatch (s : List Char) : Option (Option Char × List Char × List Char) :=
  match s with
  | c :: rest =>
    if c.isAlpha then
      match rest.dropWhile Char.isDigit with
      | '^' :: t => some (some c, rest.takeWhile Char.isDigit, t)
      | _ => reNoLetter s
    else reNoLetter s
  | [] => reNoLetter []

/-- `Page.fromStr`: an empty (or absent) animate group and an empty delay group are
falsy, so each falls back to the caller-supplied default; a captured letter is fed to
the `PageAnimate` constructor and a nonempty digit run to `parseInt`. -/
def Page.fromStr (s : List Char) (default_animate : PageAnimate) (default_delay : Nat) : Page :=
  match reMatch s with
  | none => ⟨default_animate, default_delay, s⟩
  | some (copt, ds, t) =>
    ⟨match copt with
      | some c => PageAnimate.ofStr (String.mk [c])
      | none => default_animate,
     if ds = [] then default_delay else digitsToNat ds,
     t⟩

/-- Decimal digits of `n` by repeated division, with enough fuel to terminate
(structural recursion on the fuel keeps the function kernel-reducible). -/
def natToDecimalCore (fuel n : Nat) : List Char :=
  match fuel with
  | 0 => []
  | fuel + 1 =>
    if n < 10 then [Char.ofNat (48 + n)]
    else natToDecimalCore fuel (n / 10) ++ [Char.ofNat (48 + n % 10)]

/-- Decimal notation of a natural number, as JavaScript string-concatenation
renders the delay in `Page.toString`. -/
def natToDecimal (n : Nat) : List Char :=
  natToDecimalCore (n + 1) n

/-- `Page.toString`: `this.#animate.toString() + this.#delay + '^' + this.#text`. -/
def Page.toString (p : Page) : List Char :=
  p.animate.animate.data ++ natToDecimal p.delay ++ '^' :: p.text

/-- Length of the leading run of `_` characters, as the regex match
`text.match(/^(_+)/)?.[0].length || 0` computes it. -/
def leadingUnderscores (text : List Char) : Nat :=
  (text.takeWhile (fun c => c = '_')).length

/-- `line.replace('~', '\\R')`: JavaScript `String.replace` with a string pattern
replaces only the first occurrence. -/
def replaceFirstTilde : List Char → List Char
  | [] => []
  | c :: rest => if c = '~' then '\\' :: 'R' :: rest else c :: replaceFirstTilde rest

/-- The line-splitting loop of `Page.fromBytes` (also the semantics of
`String.split` with a single-character separator used in `Page.toBytes`):
`line` is the segment accumulated so far. -/
def splitLoop {α : Type} [DecidableEq α] (sep : α) : List α → List α → List (List α)
  | [], line => [line]
  | c :: rest, line =>
    if c = sep then line :: splitLoop sep rest []
    else splitLoop sep rest (line ++ [c])

/-- Split on a separator into the list of (possibly empty) segments. -/
def splitSep {α : Type} [DecidableEq α] (sep : α) (xs : List α) : List (List α) :=
  splitLoop sep xs []

/-- `Array.prototype.join` with a single-element separator. -/
def joinSep {α : Type} (sep : α) : List (List α) → List α
  | [] => []
  | [l] => l
  | l :: ls => l ++ sep :: joinSep sep ls

/-- The `Buffer.from` coercion of one array entry: a hole (`undefined`) becomes `0`,
a number is truncated to an unsigned byte. -/
def jsToUint8 (o : Option Nat) : Nat :=
  (o.getD 0) % 256

/-- `Page.toBytes`: 4-byte header (animate byte looked up by the animation's string
value, leading-underscore count, delay, reserved `0x00`) followed by the text body:
the text after the leading underscores, split on `_`, each line's first `~` replaced
by `\R` and encoded, joined by the reduce `(acc, e) => [...acc, 0x0A, ...e]` and
`slice(1)`; `Buffer.from` then coerces every entry (holes from unsupported
characters become `0`). -/
def Page.toBytes (p : Page) : List Nat :=
  let offsetByte := leadingUnderscores p.text
  let textBytes :=
    (((splitSep '_' (p.text.drop offsetByte)).map
        (fun line => Page.encodeText (replaceFirstTilde line))).foldl
      (fun acc e => acc ++ some 0x0A :: e) []).drop 1
  ([ANIMATE_ENCODING p.animate, some offsetByte, some p.delay, some 0] ++ textBytes).map jsToUint8

/-- Error taxonomy for `Page.fromBytes` (each constructor names one `throw` site;
in the source all are `RangeError`s distinguished by message). -/
inductive PageError where
  | TruncatedFrame
  | UnknownAnimationByte
  | MalformedReservedByte
deriving DecidableEq

/-- `str.replace(/ +$/)`: called with no replacement argument, so a trailing run of
spaces, when present, is replaced by the string `"undefined"`; a string with no
trailing space is returned unchanged. -/
def jsReplaceTrailingSpaces (l : List Char) : List Char :=
  if l.reverse.takeWhile (fun c => c = ' ') = [] then l
  else (l.reverse.dropWhile (fun c => c = ' ')).reverse ++ "undefined".data

/-- `text.replace('\\R', '~')`: replace the first occurrence of the two-character
sequence `\R` by `~`. -/
def replaceFirstBR : List Char → List Char
  | [] => []
  | [c] => [c]
  | c :: d :: rest =>
    if c = '\\' ∧ d = 'R' then '~' :: rest
    else c :: replaceFirstBR (d :: rest)

/-- `Page.fromBytes`: 4-byte minimum (else `TruncatedFrame`), recognized animate byte
(else `UnknownAnimationByte`), reserved fourth byte `0x00` (else
`MalformedReservedByte`; the source's error message references an undeclared
`bytes_in`, which changes only the thrown object, not which inputs fail); the body is
right-trimmed of `0x0A`, split on `0x0A`, each line decoded, trailing spaces
"replaced" (see `jsReplaceTrailingSpaces`), the first `\R` turned back into `~`, the
lines joined with `_` and `offset` copies of `_` prepended. -/
def Page.fromBytes (bytes : List Nat) : Except PageError Page :=
  if bytes.length < 4 then .error .TruncatedFrame
  else
    match ANIMATE_DECODING (bytes.getD 0 0) with
    | none => .error .UnknownAnimationByte
    | some animate =>
      let offset := bytes.getD 1 0
      let delay := bytes.getD 2 0
      if bytes.getD 3 0 ≠ 0 then .error .MalformedReservedByte
      else
        let rawText := ((bytes.drop 4).reverse.dropWhile (fun b => b = 0x0A)).reverse
        let lines := splitSep 0x0A rawText
        let text := List.replicate offset '_' ++
          joinSep '_' (lines.map (fun l =>
            replaceFirstBR (jsReplaceTrailingSpaces (Page.decodeText l))))
        .ok ⟨animate, delay, text⟩

/-- Error taxonomy for the message classes.  `FrameMismatch` covers the two
length-check `RangeError`s and the marker `RangeError`, `MalformedReservedByte`
the nonzero-reserved-byte `RangeError`.  `MissingSuperCall` is the
`ReferenceError` raised inside the `PingMessage`/`ResponseMessage` constructors:
both classes extend `Message` without calling `super()`, and a derived-class
constructor may not touch `this` (here `this.#unspecified_byte = ...`) before
`super()` runs, so every construction throws. -/
inductive MessageError where
  | FrameMismatch
  | MalformedReservedByte
  | MissingSuperCall
deriving DecidableEq

/-- The `PingMessage` (keep-alive) frame. -/
structure PingMessage where
  unspecified_byte : Nat
  address : Nat
deriving DecidableEq

/-- `PingMessage.marker`. -/
def PingMessage.marker (address : Nat) : List Nat :=
  [address, 0x50]

/-- The `PingMessage` constructor, `new PingMessage(unspecified_byte, address)`:
the class extends `Message` but never calls `super()`, so its first statement
`this.#unspecified_byte = unspecified_byte` throws a `ReferenceError` — the
construction never yields the frame value the arguments describe. -/
def PingMessage.construct (_unspecified_byte _address : Nat) :
    Except MessageError PingMessage :=
  .error .MissingSuperCall

/-- `PingMessage.fromBytes`: length exactly 3 and first two bytes equal to the
marker, else `FrameMismatch`; the surviving path runs the constructor, which
throws (see `PingMessage.construct`). -/
def PingMessage.fromBytes (bytes : List Nat) (address : Nat) : Except MessageError PingMessage :=
  if bytes.length < 3 then .error .FrameMismatch
  else if bytes.length > 3 then .error .FrameMismatch
  else if ¬(bytes.getD 0 0 = address ∧ bytes.getD 1 0 = 0x50) then .error .FrameMismatch
  else PingMessage.construct (bytes.getD 2 0) address

/-- The `ResponseMessage` (acknowledgement) frame. -/
structure ResponseMessage where
  unspecified_byte : Nat
  address : Nat
deriving DecidableEq

/-- `ResponseMessage.marker`. -/
def ResponseMessage.marker (address : Nat) : List Nat :=
  [address, 0x52]

/-- The `ResponseMessage` constructor, `new ResponseMessage(unspecified_byte,
address)`: like `PingMessage`, the class extends `Message` without calling
`super()`, so the first `this.#...` assignment throws a `ReferenceError`. -/
def ResponseMessage.construct (_unspecified_byte _address : Nat) :
    Except MessageError ResponseMessage :=
  .error .MissingSuperCall

/-- `ResponseMessage.fromBytes`: length exactly 4 and first two bytes equal to
the marker, else `FrameMismatch`; nonzero fourth byte, else
`MalformedReservedByte`; the surviving path runs the constructor, which throws
(see `ResponseMessage.construct`). -/
def ResponseMessage.fromBytes (bytes : List Nat) (address : Nat) : Except MessageError ResponseMessage :=
  if bytes.length < 4 then .error .FrameMismatch
  else if bytes.length > 4 then .error .FrameMismatch
  else if ¬(bytes.getD 0 0 = address ∧ bytes.getD 1 0 = 0x52) then .error .FrameMismatch
  else if bytes.getD 3 0 ≠ 0 then .error .MalformedReservedByte
  else ResponseMessage.construct (bytes.getD 2 0) address

deriving instance DecidableEq for Except

/-! ### Helper lemmas -/

theorem decodeText_eq_map (bs : List Nat) :
    Page.decodeText bs = bs.map (fun b => (TEXT_DECODING b).getD (Char.ofNat 0xFFFD)) := by
  suffices h : ∀ (bs : List Nat) (acc : List Char),
      bs.foldl (fun text b =>
        text ++ (match TEXT_DECODING b with
                 | some c => [c]
                 | none => [Char.ofNat 0xFFFD])) acc
        = acc ++ bs.map (fun b => (TEXT_DECODING b).getD (Char.ofNat 0xFFFD)) by
    simpa using h bs []
  intro bs
  induction bs with
  | nil => simp
  | cons b rest ih =>
    intro acc
    simp only [List.foldl_cons, List.map_cons, ih]
    cases h : TEXT_DECODING b <;> simp [h]

/-! ### Claims C3, C10, C8 -/

/-- C3: the claim says `Page.encodeText` fails with an UnsupportedCharacter error
exactly when some input character is absent from the encode table.  In the source the
guard `badChars.length > 0` inspects `length` of a `Set` (which only has `size`), so
it is always false: on the unsupported character `@` the function still returns
normally, producing a holey array, even though the loop did collect `@` in
`badChars`. -/
theorem c3_encode_never_fails :
    TEXT_ENCODING '@' = none ∧
    encodeBadChars ['@'] = ['@'] ∧
    Page.encodeText ['@'] = [none] := by
  refine ⟨by decide, by decide, by decide⟩

/-- C10: the claim says an unrecognized animation letter fails with InvalidAnimation
and an out-of-range delay fails with DelayOutOfRange at construction time.  Neither
constructor validates anything: parsing `"Z999^hi"` returns a `Page` carrying the
unrecognized animation letter `Z` and the out-of-range delay `999`. -/
theorem c10_no_validation :
    Page.fromStr "Z999^hi".data PageAnimate.NONE 20
      = ⟨PageAnimate.ofStr "Z", 999, "hi".data⟩ ∧
    PageAnimate.ofStr "Z" ≠ PageAnimate.NONE ∧
    PageAnimate.ofStr "Z" ≠ PageAnimate.VSCROLL ∧
    PageAnimate.ofStr "Z" ≠ PageAnimate.HSCROLL ∧
    255 < 999 := by
  refine ⟨by decide, by decide, by decide, by decide, by decide⟩

/-- C8: decoding is total (the embedding returns a plain `List Char`; the source
loop contains no throw): every byte with a `_TEXT_DECODING` entry maps to its
character and every unmapped byte maps to U+FFFD, position by position. -/
theorem c8_decode_total (bs : List Nat) :
    Page.decodeText bs
      = bs.map (fun b => (TEXT_DECODING b).getD (Char.ofNat 0xFFFD)) ∧
    (Page.decodeText bs).length = bs.length := by
  refine ⟨decodeText_eq_map bs, ?_⟩
  rw [decodeText_eq_map bs, List.length_map]

/-! ### Claims C5, C6 -/

/-- C5: the claim's failure cases hold — `PingMessage.fromBytes` fails with
FrameMismatch on any length other than 3 or a mismatched marker, and
`ResponseMessage.fromBytes` fails with FrameMismatch on any length other than 4
or a mismatched marker and with MalformedReservedByte on a nonzero fourth byte —
but the claimed success cases do not exist in the code: on a well-formed frame
each `fromBytes` reaches its constructor, which throws a `ReferenceError`
because neither derived class ever calls `super()` (`MissingSuperCall`), so
neither function ever returns a frame. -/
theorem c5_message_frames :
    (∀ bs addr, bs.length ≠ 3 →
      PingMessage.fromBytes bs addr = .error .FrameMismatch) ∧
    (∀ b0 b1 b2 addr, ¬(b0 = addr ∧ b1 = 0x50) →
      PingMessage.fromBytes [b0, b1, b2] addr = .error .FrameMismatch) ∧
    (∀ addr b2, PingMessage.fromBytes [addr, 0x50, b2] addr = .error .MissingSuperCall) ∧
    (∀ bs addr, bs.length ≠ 4 →
      ResponseMessage.fromBytes bs addr = .error .FrameMismatch) ∧
    (∀ b0 b1 b2 b3 addr, ¬(b0 = addr ∧ b1 = 0x52) →
      ResponseMessage.fromBytes [b0, b1, b2, b3] addr = .error .FrameMismatch) ∧
    (∀ addr b2 b3, b3 ≠ 0 →
      ResponseMessage.fromBytes [addr, 0x52, b2, b3] addr = .error .MalformedReservedByte) ∧
    (∀ addr b2,
      ResponseMessage.fromBytes [addr, 0x52, b2, 0] addr = .error .MissingSuperCall) := by
  refine ⟨?_, ?_, ?_, ?_, ?_, ?_, ?_⟩
  · intro bs addr h
    simp only [PingMessage.fromBytes]
    rcases Nat.lt_or_ge bs.length 3 with hlt | hge
    · simp [hlt]
    · have hgt : bs.length > 3 := by omega
      simp [Nat.not_lt.mpr hge, hgt]
  · intro b0 b1 b2 addr h
    simp only [PingMessage.fromBytes]
    simp [h]
  · intro addr b2
    simp [PingMessage.fromBytes, PingMessage.construct]
  · intro bs addr h
    simp only [ResponseMessage.fromBytes]
    rcases Nat.lt_or_ge bs.length 4 with hlt | hge
    · simp [hlt]
    · have hgt : bs.length > 4 := by omega
      simp [Nat.not_lt.mpr hge, hgt]
  · intro b0 b1 b2 b3 addr h
    simp only [ResponseMessage.fromBytes]
    simp [h]
  · intro addr b2 b3 h
    simp [ResponseMessage.fromBytes, h]
  · intro addr b2
    simp [ResponseMessage.fromBytes, ResponseMessage.construct]

/-- C5 witness: concrete applications of each conjunct of `c5_message_frames`. -/
theorem c5_message_frames_witness :
    PingMessage.fromBytes [1, 0x50] 1 = .error .FrameMismatch ∧
    PingMessage.fromBytes [1, 0x51, 0x6F] 1 = .error .FrameMismatch ∧
    PingMessage.fromBytes [1, 0x50, 0x6F] 1 = .error .MissingSuperCall ∧
    ResponseMessage.fromBytes [1, 0x52, 7] 1 = .error .FrameMismatch ∧
    ResponseMessage.fromBytes [2, 0x52, 7, 0] 1 = .error .FrameMismatch ∧
    ResponseMessage.fromBytes [1, 0x52, 7, 5] 1 = .error .MalformedReservedByte ∧
    ResponseMessage.fromBytes [1, 0x52, 7, 0] 1 = .error .MissingSuperCall :=
  ⟨c5_message_frames.1 [1, 0x50] 1 (by decide),
   c5_message_frames.2.1 1 0x51 0x6F 1 (by decide),
   c5_message_frames.2.2.1 1 0x6F,
   c5_message_frames.2.2.2.1 [1, 0x52, 7] 1 (by decide),
   c5_message_frames.2.2.2.2.1 2 0x52 7 0 1 (by decide),
   c5_message_frames.2.2.2.2.2.1 1 7 5 (by decide),
   c5_message_frames.2.2.2.2.2.2 1 7⟩

/-- C6: `Page.fromBytes` fails with TruncatedFrame on fewer than 4 bytes; on at
least 4 bytes, with UnknownAnimationByte when the first byte is not one of
`0x00`/`0x1D`/`0x2F`; and, the animate byte being recognized (that check runs
first), with MalformedReservedByte when the fourth byte is nonzero. -/
theorem c6_fromBytes_validation :
    (∀ bs, bs.length < 4 → Page.fromBytes bs = .error .TruncatedFrame) ∧
    (∀ bs, 4 ≤ bs.length → bs.getD 0 0 ∉ ([0x00, 0x1D, 0x2F] : List Nat) →
      Page.fromBytes bs = .error .UnknownAnimationByte) ∧
    (∀ bs, 4 ≤ bs.length → bs.getD 0 0 ∈ ([0x00, 0x1D, 0x2F] : List Nat) →
      bs.getD 3 0 ≠ 0 → Page.fromBytes bs = .error .MalformedReservedByte) := by
  refine ⟨?_, ?_, ?_⟩
  · intro bs h
    simp [Page.fromBytes, h]
  · intro bs hlen h
    obtain _ | ⟨b0, _ | ⟨b1, _ | ⟨b2, _ | ⟨b3, rest⟩⟩⟩⟩ := bs <;> simp at hlen
    simp [List.getD] at h
    obtain ⟨h0, h1, h2⟩ := h
    simp only [Page.fromBytes, List.length_cons]
    rw [if_neg (by omega)]
    simp [ANIMATE_DECODING, h0, h1, h2]
  · intro bs hlen hmem h3
    obtain _ | ⟨b0, _ | ⟨b1, _ | ⟨b2, _ | ⟨b3, rest⟩⟩⟩⟩ := bs <;> simp at hlen
    simp [List.getD] at hmem
    simp [List.getD] at h3
    simp only [Page.fromBytes, List.length_cons]
    rw [if_neg (by omega)]
    rcases hmem with h0 | h0 | h0 <;>
      simp [ANIMATE_DECODING, h0, h3]

/-- C6 witness: concrete applications of each conjunct of `c6_fromBytes_validation`. -/
theorem c6_fromBytes_validation_witness :
    Page.fromBytes [0x1D, 0, 35] = .error .TruncatedFrame ∧
    Page.fromBytes [0x05, 0, 0, 0] = .error .UnknownAnimationByte ∧
    Page.fromBytes [0x1D, 0, 0, 9] = .error .MalformedReservedByte :=
  ⟨c6_fromBytes_validation.1 [0x1D, 0, 35] (by decide),
   c6_fromBytes_validation.2.1 [0x05, 0, 0, 0] (by decide) (by decide),
   c6_fromBytes_validation.2.2 [0x1D, 0, 0, 9] (by decide) (by decide) (by decide)⟩

/-! ### Grammar lemmas -/

theorem digit_not_alpha {c : Char} (h : c.isDigit = true) : c.isAlpha = false := by
  simp only [Char.isDigit, Char.isAlpha, Char.isUpper, Char.isLower, ge_iff_le,
    Bool.and_eq_true, decide_eq_true_eq, Bool.or_eq_false_iff, Bool.and_eq_false_iff,
    decide_eq_false_iff_not, not_le, UInt32.le_def, UInt32.lt_def, BitVec.le_def,
    BitVec.lt_def, show (UInt32.toBitVec 48).toNat = 48 from rfl,
    show (UInt32.toBitVec 57).toNat = 57 from rfl,
    show (UInt32.toBitVec 65).toNat = 65 from rfl,
    show (UInt32.toBitVec 90).toNat = 90 from rfl,
    show (UInt32.toBitVec 97).toNat = 97 from rfl,
    show (UInt32.toBitVec 122).toNat = 122 from rfl] at h ⊢
  omega

theorem takeWhile_append_of_all {α : Type} (p : α → Bool) {ds : List α}
    (h : ∀ x ∈ ds, p x) (y : α) (hy : p y = false) (rest : List α) :
    (ds ++ y :: rest).takeWhile p = ds ∧ (ds ++ y :: rest).dropWhile p = y :: rest := by
  induction ds with
  | nil => simp [List.takeWhile, List.dropWhile, hy]
  | cons d ds ih =>
    have hd : p d = true := h d (by simp)
    have ih2 := ih (fun x hx => h x (by simp [hx]))
    simp [List.takeWhile_cons, List.dropWhile_cons, hd, ih2.1, ih2.2]

theorem reMatch_letter {c : Char} (hc : c.isAlpha = true) {ds : List Char}
    (hds : ∀ x ∈ ds, x.isDigit) (t : List Char) :
    reMatch (c :: (ds ++ '^' :: t)) = some (some c, ds, t) := by
  have h := takeWhile_append_of_all Char.isDigit hds '^' (by decide) t
  simp [reMatch, hc, h.1, h.2]

theorem reNoLetter_eval {ds : List Char} (hds : ∀ x ∈ ds, x.isDigit) (t : List Char) :
    reNoLetter (ds ++ '^' :: t) = some (none, ds, t) := by
  have h := takeWhile_append_of_all Char.isDigit hds '^' (by decide) t
  unfold reNoLetter
  rw [h.2, h.1]
  rfl

theorem reMatch_noLetter {ds : List Char} (hds : ∀ x ∈ ds, x.isDigit) (t : List Char) :
    reMatch (ds ++ '^' :: t) = some (none, ds, t) := by
  have hEval := reNoLetter_eval hds t
  cases ds with
  | nil =>
    simpa [reMatch, (by decide : ('^').isAlpha = false)] using hEval
  | cons d ds2 =>
    have hd : d.isDigit := hds d (by simp)
    simpa [reMatch, digit_not_alpha hd] using hEval

theorem reNoLetter_decomp {s : List Char} {r : Option Char × List Char × List Char}
    (h : reNoLetter s = some r) :
    ∃ ds t, r = (none, ds, t) ∧ s = ds ++ '^' :: t ∧ ∀ x ∈ ds, x.isDigit := by
  rw [reNoLetter] at h
  split at h
  · rename_i t heq
    cases h
    refine ⟨s.takeWhile Char.isDigit, t, rfl, ?_, fun x hx => List.mem_takeWhile_imp hx⟩
    conv_lhs => rw [← List.takeWhile_append_dropWhile Char.isDigit s]
    rw [heq]
  · cases h

theorem reMatch_decomp {s : List Char} {r : Option Char × List Char × List Char}
    (h : reMatch s = some r) :
    (∃ ds t, r = (none, ds, t) ∧ s = ds ++ '^' :: t ∧ ∀ x ∈ ds, x.isDigit) ∨
    (∃ c ds t, r = (some c, ds, t) ∧ s = c :: (ds ++ '^' :: t) ∧ c.isAlpha ∧
      ∀ x ∈ ds, x.isDigit) := by
  cases s with
  | nil =>
    simp [reMatch, reNoLetter] at h
  | cons c rest =>
    rw [reMatch] at h
    by_cases hc : c.isAlpha
    · rw [if_pos hc] at h
      split at h
      · rename_i t heq
        cases h
        refine .inr ⟨c, rest.takeWhile Char.isDigit, t, rfl, ?_, hc,
          fun x hx => List.mem_takeWhile_imp hx⟩
        have : rest = rest.takeWhile Char.isDigit ++ '^' :: t := by
          conv_lhs => rw [← List.takeWhile_append_dropWhile Char.isDigit rest]
          rw [heq]
        rw [← this]
      · obtain ⟨ds, t, hr, hs, hd⟩ := reNoLetter_decomp h
        exact .inl ⟨ds, t, hr, hs, hd⟩
    · rw [if_neg hc] at h
      obtain ⟨ds, t, hr, hs, hd⟩ := reNoLetter_decomp h
      exact .inl ⟨ds, t, hr, hs, hd⟩

/-- A string that can stand before the `^` of `Page._STR_RE`'s prefix group:
an optional ASCII letter followed by decimal digits. -/
def grammarPre (pre : List Char) : Prop :=
  (∀ x ∈ pre, x.isDigit) ∨
  (∃ c rest, pre = c :: rest ∧ c.isAlpha ∧ ∀ x ∈ rest, x.isDigit)

/-- No decomposition `s = pre ++ '^' :: post` has a grammar-shaped `pre`:
the optional prefix group of `Page._STR_RE` cannot match. -/
def noGrammarHead (s : List Char) : Prop :=
  ∀ pre post, s = pre ++ '^' :: post → ¬ grammarPre pre

theorem reMatch_eq_none {s : List Char} (h : noGrammarHead s) : reMatch s = none := by
  cases hm : reMatch s with
  | none => rfl
  | some r =>
    exfalso
    rcases reMatch_decomp hm with ⟨ds, t, _, hs, hd⟩ | ⟨c, ds, t, _, hs, hc, hd⟩
    · exact h ds t hs (Or.inl hd)
    · exact h (c :: ds) t (by simp [hs]) (Or.inr ⟨c, ds, rfl, hc, hd⟩)

theorem fromStr_letter (a : PageAnimate) (dflt : Nat) {c : Char} (hc : c.isAlpha = true)
    {ds : List Char} (hds : ∀ x ∈ ds, x.isDigit) (t : List Char) :
    Page.fromStr (c :: (ds ++ '^' :: t)) a dflt
      = ⟨PageAnimate.ofStr (String.mk [c]), if ds = [] then dflt else digitsToNat ds, t⟩ := by
  simp [Page.fromStr, reMatch_letter hc hds t]

theorem fromStr_noLetter (a : PageAnimate) (dflt : Nat) {ds : List Char}
    (hds : ∀ x ∈ ds, x.isDigit) (t : List Char) :
    Page.fromStr (ds ++ '^' :: t) a dflt
      = ⟨a, if ds = [] then dflt else digitsToNat ds, t⟩ := by
  simp [Page.fromStr, reMatch_noLetter hds t]

theorem fromStr_noMatch (a : PageAnimate) (dflt : Nat) {s : List Char}
    (h : noGrammarHead s) :
    Page.fromStr s a dflt = ⟨a, dflt, s⟩ := by
  simp [Page.fromStr, reMatch_eq_none h]

/-! ### Decimal notation lemmas -/

theorem natToDecimalCore_irrel (f1 : Nat) : ∀ f2 n, n < f1 → n < f2 →
    natToDecimalCore f1 n = natToDecimalCore f2 n := by
  induction f1 with
  | zero => intro f2 n h; omega
  | succ f1 ih =>
    intro f2 n h1 h2
    cases f2 with
    | zero => omega
    | succ f2 =>
      simp only [natToDecimalCore]
      by_cases hn : n < 10
      · simp [hn]
      · have hdiv : n / 10 < n := Nat.div_lt_self (by omega) (by omega)
        simp only [if_neg hn]
        rw [ih f2 (n / 10) (by omega) (by omega)]

theorem natToDecimal_unfold (n : Nat) :
    natToDecimal n = if n < 10 then [Char.ofNat (48 + n)]
      else natToDecimal (n / 10) ++ [Char.ofNat (48 + n % 10)] := by
  by_cases hn : n < 10
  · simp [natToDecimal, natToDecimalCore, hn]
  · have hdiv : n / 10 < n := Nat.div_lt_self (by omega) (by omega)
    have h1 : natToDecimal n
        = if n < 10 then [Char.ofNat (48 + n)]
          else natToDecimalCore n (n / 10) ++ [Char.ofNat (48 + n % 10)] := rfl
    rw [h1, if_neg hn, natToDecimalCore_irrel n (n / 10 + 1) (n / 10) hdiv (by omega),
      if_neg hn]
    rfl

theorem toNat_ofNat_digit {m : Nat} (h : m < 10) :
    (Char.ofNat (48 + m)).toNat = 48 + m ∧ (Char.ofNat (48 + m)).isDigit = true := by
  interval_cases m <;> exact ⟨by decide, by decide⟩

theorem digitsToNat_append (ds : List Char) (c : Char) :
    digitsToNat (ds ++ [c]) = digitsToNat ds * 10 + (c.toNat - 48) := by
  simp [digitsToNat, List.foldl_append]

theorem natToDecimal_spec (n : Nat) :
    natToDecimal n ≠ [] ∧ ∀ c ∈ natToDecimal n, c.isDigit := by
  induction n using Nat.strong_induction_on with
  | _ n ih =>
    rw [natToDecimal_unfold]
    by_cases hn : n < 10
    · simp only [if_pos hn]
      refine ⟨by simp, ?_⟩
      intro c hc
      simp only [List.mem_singleton] at hc
      subst hc
      exact (toNat_ofNat_digit hn).2
    · have hdiv : n / 10 < n := Nat.div_lt_self (by omega) (by omega)
      simp only [if_neg hn]
      refine ⟨by simp, ?_⟩
      intro c hc
      rcases List.mem_append.1 hc with hL | hR
      · exact (ih (n / 10) hdiv).2 c hL
      · simp only [List.mem_singleton] at hR
        subst hR
        exact (toNat_ofNat_digit (Nat.mod_lt n (by omega))).2

theorem digitsToNat_natToDecimal (n : Nat) : digitsToNat (natToDecimal n) = n := by
  induction n using Nat.strong_induction_on with
  | _ n ih =>
    rw [natToDecimal_unfold]
    by_cases hn : n < 10
    · simp only [if_pos hn]
      have h := (toNat_ofNat_digit hn).1
      simp [digitsToNat, h]
    · have hdiv : n / 10 < n := Nat.div_lt_self (by omega) (by omega)
      simp only [if_neg hn]
      rw [digitsToNat_append, ih (n / 10) hdiv,
        (toNat_ofNat_digit (Nat.mod_lt n (by omega))).1]
      omega

/-! ### Claims C4, C9 -/

/-- C4: with no grammar prefix ending in `^`, the whole input is the text and both
fields take the defaults; with a prefix, a present (case-insensitive) letter selects
the animation and a nonempty digit run selects the delay, each absent field taking
its default; an empty digit run (with or without a letter) yields the default delay,
never zero. -/
theorem c4_fromStr_grammar :
    (∀ s a d, noGrammarHead s → Page.fromStr s a d = ⟨a, d, s⟩) ∧
    (∀ a d (c : Char) ds t, c.isAlpha → ds ≠ [] → (∀ x ∈ ds, x.isDigit) →
      Page.fromStr (c :: (ds ++ '^' :: t)) a d
        = ⟨PageAnimate.ofStr (String.mk [c]), digitsToNat ds, t⟩) ∧
    (∀ a d ds t, ds ≠ [] → (∀ x ∈ ds, x.isDigit) →
      Page.fromStr (ds ++ '^' :: t) a d = ⟨a, digitsToNat ds, t⟩) ∧
    (∀ a d (c : Char) t, c.isAlpha →
      Page.fromStr (c :: '^' :: t) a d
        = ⟨PageAnimate.ofStr (String.mk [c]), d, t⟩) ∧
    (∀ a d t, Page.fromStr ('^' :: t) a d = ⟨a, d, t⟩) := by
  refine ⟨?_, ?_, ?_, ?_, ?_⟩
  · intro s a d h
    exact fromStr_noMatch a d h
  · intro a d c ds t hc hne hds
    rw [fromStr_letter a d hc hds t, if_neg hne]
  · intro a d ds t hne hds
    rw [fromStr_noLetter a d hds t, if_neg hne]
  · intro a d c t hc
    have h := @fromStr_letter a d c hc [] (by simp) t
    simpa using h
  · intro a d t
    have h := @fromStr_noLetter a d [] (by simp) t
    simpa using h

/-- C4 witness: the conjuncts of `c4_fromStr_grammar` applied at `"hello"`,
`"H40^hello"`, `"40^test"`, `"V^hello"` and `"^x"`. -/
theorem c4_fromStr_grammar_witness :
    Page.fromStr "hello".data PageAnimate.NONE 20
      = ⟨PageAnimate.NONE, 20, "hello".data⟩ ∧
    Page.fromStr ('H' :: (['4', '0'] ++ '^' :: "hello".data)) PageAnimate.NONE 20
      = ⟨PageAnimate.ofStr (String.mk ['H']), digitsToNat ['4', '0'], "hello".data⟩ ∧
    Page.fromStr (['4', '0'] ++ '^' :: "test".data) PageAnimate.NONE 20
      = ⟨PageAnimate.NONE, digitsToNat ['4', '0'], "test".data⟩ ∧
    Page.fromStr ('V' :: '^' :: "hello".data) PageAnimate.NONE 20
      = ⟨PageAnimate.ofStr (String.mk ['V']), 20, "hello".data⟩ ∧
    Page.fromStr ('^' :: "x".data) PageAnimate.NONE 20
      = ⟨PageAnimate.NONE, 20, "x".data⟩ := by
  have hng : noGrammarHead "hello".data := by
    intro pre post hEq
    intro _
    have hmem : '^' ∈ "hello".data := by
      rw [hEq]
      exact List.mem_append_right _ (List.mem_cons_self _ _)
    exact absurd hmem (by decide)
  exact ⟨c4_fromStr_grammar.1 "hello".data PageAnimate.NONE 20 hng,
    c4_fromStr_grammar.2.1 PageAnimate.NONE 20 'H' ['4', '0'] "hello".data
      (by decide) (by decide) (by decide),
    c4_fromStr_grammar.2.2.1 PageAnimate.NONE 20 ['4', '0'] "test".data
      (by decide) (by decide),
    c4_fromStr_grammar.2.2.2.1 PageAnimate.NONE 20 'V' "hello".data (by decide),
    c4_fromStr_grammar.2.2.2.2 PageAnimate.NONE 20 "x".data⟩

/-- C9: `toString` emits `<animationLetter><delayDecimal>^<text>`, always emitting
both fields, and parsing the result reproduces the page; in particular the
FUNKYTOWN example serializes as stated in the spec. -/
theorem c9_toString_roundtrip :
    (∀ (a : PageAnimate) (d : Nat) (t : List Char),
      a = PageAnimate.NONE ∨ a = PageAnimate.VSCROLL ∨ a = PageAnimate.HSCROLL →
      Page.fromStr (Page.toString ⟨a, d, t⟩) PageAnimate.NONE 20 = ⟨a, d, t⟩) ∧
    Page.toString ⟨PageAnimate.VSCROLL, 40, "12:34 FUNKYTOWN~5_Limited Express".data⟩
      = "V40^12:34 FUNKYTOWN~5_Limited Express".data := by
  constructor
  · intro a d t h
    have hds := (natToDecimal_spec d).2
    have hne := (natToDecimal_spec d).1
    rcases h with rfl | rfl | rfl
    · have hA : PageAnimate.NONE.animate.data = ['N'] := by decide
      simp only [Page.toString, hA, List.cons_append, List.nil_append]
      rw [fromStr_letter PageAnimate.NONE 20 (by decide) hds t, if_neg hne,
        digitsToNat_natToDecimal]
      have : PageAnimate.ofStr (String.mk ['N']) = PageAnimate.NONE := by decide
      rw [this]
    · have hA : PageAnimate.VSCROLL.animate.data = ['V'] := by decide
      simp only [Page.toString, hA, List.cons_append, List.nil_append]
      rw [fromStr_letter PageAnimate.NONE 20 (by decide) hds t, if_neg hne,
        digitsToNat_natToDecimal]
      have : PageAnimate.ofStr (String.mk ['V']) = PageAnimate.VSCROLL := by decide
      rw [this]
    · have hA : PageAnimate.HSCROLL.animate.data = ['H'] := by decide
      simp only [Page.toString, hA, List.cons_append, List.nil_append]
      rw [fromStr_letter PageAnimate.NONE 20 (by decide) hds t, if_neg hne,
        digitsToNat_natToDecimal]
      have : PageAnimate.ofStr (String.mk ['H']) = PageAnimate.HSCROLL := by decide
      rw [this]
  · decide

/-- C9 witness: the round-trip applied at the FUNKYTOWN page. -/
theorem c9_toString_roundtrip_witness :
    Page.fromStr
      (Page.toString ⟨PageAnimate.VSCROLL, 40, "12:34 FUNKYTOWN~5_Limited Express".data⟩)
      PageAnimate.NONE 20
      = ⟨PageAnimate.VSCROLL, 40, "12:34 FUNKYTOWN~5_Limited Express".data⟩ :=
  c9_toString_roundtrip.1 PageAnimate.VSCROLL 40 "12:34 FUNKYTOWN~5_Limited Express".data
    (Or.inr (Or.inl rfl))

/-! ### Character codec lemmas -/

set_option maxHeartbeats 1000000 in
theorem perm_tables : ∀ c ∈ PERMITTED_CHARS,
    (TEXT_ENCODING c).isSome = true ∧
    TEXT_DECODING ((TEXT_ENCODING c).getD 0) = some c ∧
    (TEXT_ENCODING c).getD 0 < 256 ∧ (TEXT_ENCODING c).getD 0 ≠ 10 := by decide

theorem encode_mem_permitted {c : Char} {b : Nat} (h : TEXT_ENCODING c = some b) :
    c ∈ PERMITTED_CHARS := by
  unfold TEXT_ENCODING at h
  split_ifs at h with h1 h2 h3 h4 h5 h6 h7
  · exact List.mem_append_left _ h1
  · subst h2; decide
  · subst h3; decide
  · subst h4; decide
  · subst h5; decide
  · subst h6; decide
  · subst h7; decide

theorem decode_encode {c : Char} {b : Nat} (h : TEXT_ENCODING c = some b) :
    TEXT_DECODING b = some c := by
  have h2 := (perm_tables c (encode_mem_permitted h)).2.1
  rw [h] at h2
  simpa using h2

theorem encode_lt_256 {c : Char} {b : Nat} (h : TEXT_ENCODING c = some b) : b < 256 := by
  have h2 := (perm_tables c (encode_mem_permitted h)).2.2.1
  rw [h] at h2
  simpa using h2

theorem encode_ne_newline {c : Char} {b : Nat} (h : TEXT_ENCODING c = some b) : b ≠ 10 := by
  have h2 := (perm_tables c (encode_mem_permitted h)).2.2.2
  rw [h] at h2
  simpa using h2

theorem decodeText_single {b : Nat} {c : Char} (h : TEXT_DECODING b = some c) :
    Page.decodeText [b] = [c] := by
  simp [Page.decodeText, h]

/-! ### Claim C7 -/

/-- C7: every permitted character survives char→byte→char (its encoded byte decodes
back to it); every canonical byte (one produced by the encoder) survives
byte→char→byte; and the decode-only bytes `0x98`, `0xA4`, `0xA5` decode to glyphs
whose canonical encodings are the different bytes `0x97` and `0xA3`. -/
theorem c7_codec_roundtrips :
    (∀ (c : Char) (b : Nat), TEXT_ENCODING c = some b → Page.decodeText [b] = [c]) ∧
    (∀ (b : Nat) (c : Char), TEXT_ENCODING c = some b →
      Page.encodeText (Page.decodeText [b]) = [some b]) ∧
    Page.decodeText [0x98] = ['─'] ∧ TEXT_ENCODING '─' = some 0x97 ∧
    Page.decodeText [0xA4] = ['▔'] ∧ Page.decodeText [0xA5] = ['▔'] ∧
    TEXT_ENCODING '▔' = some 0xA3 := by
  refine ⟨?_, ?_, by decide, by decide, by decide, by decide, by decide⟩
  · intro c b h
    exact decodeText_single (decode_encode h)
  · intro b c h
    rw [decodeText_single (decode_encode h)]
    simp [Page.encodeText, h]

/-- C7 witness: both round-trip directions applied at the character `A` / byte 65. -/
theorem c7_codec_roundtrips_witness :
    Page.decodeText [65] = ['A'] ∧
    Page.encodeText (Page.decodeText [65]) = [some 65] :=
  ⟨c7_codec_roundtrips.1 'A' 65 (by decide),
   c7_codec_roundtrips.2.1 65 'A' (by decide)⟩

/-! ### Spec-side definitions for the byte codec claims -/

/-- The protocol byte of an animation, per the spec table
(`N → 0x00`, `V → 0x1D`, `H → 0x2F`). -/
def protocolByte (a : PageAnimate) : Nat :=
  if a = PageAnimate.NONE then 0x00
  else if a = PageAnimate.VSCROLL then 0x1D
  else 0x2F

/-- Claim C1's wording `replace EVERY right-justify marker` of a line by `\R`. -/
def replaceAllTilde (l : List Char) : List Char :=
  (l.map (fun c => if c = '~' then ['\\', 'R'] else [c])).flatten

/-- `Page.toBytes` as claim C1 words it: 4-byte header, then the text after the
leading underscores, split on `_`, every `~` of each line replaced by `\R`, each
line encoded, joined with one `0x0A` between consecutive lines. -/
def claimedToBytes (p : Page) : List Nat :=
  protocolByte p.animate :: leadingUnderscores p.text :: p.delay :: 0 ::
    joinSep 0x0A ((splitSep '_' (p.text.drop (leadingUnderscores p.text))).map
      (fun l => (replaceAllTilde l).map (fun c => (TEXT_ENCODING c).getD 0)))

/-- The amended body: identical to `claimedToBytes` except that only the first
`~` of each line is replaced. -/
def amendedToBytes (p : Page) : List Nat :=
  protocolByte p.animate :: leadingUnderscores p.text :: p.delay :: 0 ::
    joinSep 0x0A ((splitSep '_' (p.text.drop (leadingUnderscores p.text))).map
      (fun l => (replaceFirstTilde l).map (fun c => (TEXT_ENCODING c).getD 0)))

/-- A display line the encoder handles losslessly: only permitted characters
besides at most one `~`. -/
def encLineOk (l : List Char) : Prop :=
  (∀ c ∈ l, c ∈ PERMITTED_CHARS ∨ c = '~') ∧ l.count '~' ≤ 1

instance (l : List Char) : Decidable (encLineOk l) := by
  unfold encLineOk; exact inferInstance

/-! ### Join/split lemmas -/

theorem foldl_sep_append {α : Type} (sep : α) (ls : List (List α)) :
    ∀ acc, ls.foldl (fun acc e => acc ++ sep :: e) acc
      = acc ++ (ls.map (fun e => sep :: e)).flatten := by
  induction ls with
  | nil => intro acc; simp
  | cons l ls ih => intro acc; simp [ih]

theorem cons_flatten_joinSep {α : Type} (sep : α) (l : List α) (ls : List (List α)) :
    l ++ ((ls.map (fun e => sep :: e)).flatten) = joinSep sep (l :: ls) := by
  induction ls generalizing l with
  | nil => simp [joinSep]
  | cons x xs ih =>
    have hx := ih x
    simp only [List.map_cons, List.flatten_cons, joinSep]
    cases xs with
    | nil => simp [joinSep]
    | cons y ys => simp only [← hx, List.cons_append, List.append_assoc]

theorem foldl_drop_joinSep {α : Type} (sep : α) (ls : List (List α)) :
    ((ls.foldl (fun acc e => acc ++ sep :: e) []).drop 1) = joinSep sep ls := by
  cases ls with
  | nil => rfl
  | cons l ls =>
    rw [foldl_sep_append]
    simp only [List.map_cons, List.flatten_cons, List.nil_append, List.cons_append,
      List.drop_succ_cons, List.drop_zero]
    exact cons_flatten_joinSep sep l ls

theorem map_joinSep {α β : Type} (f : α → β) (sep : α) (ls : List (List α)) :
    (joinSep sep ls).map f = joinSep (f sep) (ls.map (List.map f)) := by
  induction ls with
  | nil => rfl
  | cons l ls ih =>
    cases ls with
    | nil => rfl
    | cons x xs =>
      have h1 : joinSep sep (l :: x :: xs) = l ++ sep :: joinSep sep (x :: xs) := rfl
      have h2 : joinSep (f sep) ((l :: x :: xs).map (List.map f))
          = l.map f ++ f sep :: joinSep (f sep) ((x :: xs).map (List.map f)) := rfl
      rw [h1, h2, List.map_append, List.map_cons, ih]

/-! ### Encodability lemmas -/

theorem mem_permitted_encodable {c : Char} (h : c ∈ PERMITTED_CHARS) :
    ∃ b, TEXT_ENCODING c = some b :=
  Option.isSome_iff_exists.1 (perm_tables c h).1

theorem replaceFirstTilde_encodable {l : List Char}
    (h1 : ∀ c ∈ l, c ∈ PERMITTED_CHARS ∨ c = '~') (h2 : l.count '~' ≤ 1) :
    ∀ c ∈ replaceFirstTilde l, ∃ b, TEXT_ENCODING c = some b := by
  induction l with
  | nil => intro c hc; simp [replaceFirstTilde] at hc
  | cons a rest ih =>
    intro c hc
    by_cases ha : a = '~'
    · subst ha
      simp only [replaceFirstTilde, if_pos rfl] at hc
      have hrest : ('~' : Char) ∉ rest := by
        intro hmem
        have := List.count_pos_iff.2 hmem
        simp [List.count_cons_self] at h2
        omega
      rcases List.mem_cons.1 hc with rfl | hc2
      · exact ⟨0x5C, by decide⟩
      rcases List.mem_cons.1 hc2 with rfl | hc3
      · exact ⟨0x52, by decide⟩
      · have hcm := h1 c (List.mem_cons_of_mem _ hc3)
        rcases hcm with hp | rfl
        · exact mem_permitted_encodable hp
        · exact absurd hc3 hrest
    · simp only [replaceFirstTilde, if_neg ha] at hc
      rcases List.mem_cons.1 hc with rfl | hc2
      · rcases h1 c (List.mem_cons_self _ _) with hp | h
        · exact mem_permitted_encodable hp
        · exact absurd h ha
      · refine ih (fun x hx => h1 x (List.mem_cons_of_mem _ hx)) ?_ c hc2
        have := List.count_cons '~' a rest
        simp only [List.count_cons] at h2
        omega

theorem encLineOk_encodable {l : List Char} (h : encLineOk l) :
    ∀ c ∈ replaceFirstTilde l, ∃ b, TEXT_ENCODING c = some b :=
  replaceFirstTilde_encodable h.1 h.2

theorem encodeText_map_jsToUint8 {l : List Char}
    (h : ∀ c ∈ l, ∃ b, TEXT_ENCODING c = some b) :
    (Page.encodeText l).map jsToUint8 = l.map (fun c => (TEXT_ENCODING c).getD 0) := by
  unfold Page.encodeText
  rw [List.map_map]
  apply List.map_congr_left
  intro c hc
  obtain ⟨b, hb⟩ := h c hc
  simp [Function.comp, jsToUint8, hb, Nat.mod_eq_of_lt (encode_lt_256 hb)]

/-- Under valid inputs the `Buffer.from` coercions of `Page.toBytes` vanish and the
result has exactly the header-plus-joined-lines shape (with only the first `~` of
each line escaped). -/
theorem toBytes_eval {p : Page}
    (hAnim : p.animate = PageAnimate.NONE ∨ p.animate = PageAnimate.VSCROLL ∨
      p.animate = PageAnimate.HSCROLL)
    (hDelay : p.delay ≤ 255) (hOff : leadingUnderscores p.text ≤ 255)
    (hLines : ∀ l ∈ splitSep '_' (p.text.drop (leadingUnderscores p.text)), encLineOk l) :
    Page.toBytes p = amendedToBytes p := by
  have hTB : Page.toBytes p
      = (ANIMATE_ENCODING p.animate :: some (leadingUnderscores p.text) :: some p.delay ::
          some 0 ::
          (((splitSep '_' (p.text.drop (leadingUnderscores p.text))).map
            (fun line => Page.encodeText (replaceFirstTilde line))).foldl
              (fun acc e => acc ++ some 0x0A :: e) []).drop 1).map jsToUint8 := rfl
  rw [hTB, foldl_drop_joinSep]
  simp only [List.map_cons]
  rw [map_joinSep, List.map_map]
  have hA : jsToUint8 (ANIMATE_ENCODING p.animate) = protocolByte p.animate := by
    rcases hAnim with h | h | h <;> rw [h] <;> decide
  have hO : jsToUint8 (some (leadingUnderscores p.text)) = leadingUnderscores p.text := by
    simp [jsToUint8, Nat.mod_eq_of_lt (show leadingUnderscores p.text < 256 by omega)]
  have hD : jsToUint8 (some p.delay) = p.delay := by
    simp [jsToUint8, Nat.mod_eq_of_lt (show p.delay < 256 by omega)]
  rw [hA, hO, hD]
  have hBody : (splitSep '_' (p.text.drop (leadingUnderscores p.text))).map
        (List.map jsToUint8 ∘ fun line => Page.encodeText (replaceFirstTilde line))
      = (splitSep '_' (p.text.drop (leadingUnderscores p.text))).map
        (fun l => (replaceFirstTilde l).map (fun c => (TEXT_ENCODING c).getD 0)) := by
    apply List.map_congr_left
    intro l hl
    exact encodeText_map_jsToUint8 (encLineOk_encodable (hLines l hl))
  rw [hBody]
  rfl

/-! ### Claim C1 -/

/-- C1 (amended): for a Page with one of the three animations, delay and
leading-underscore count at most 255, and every line made of permitted characters
with at most one `~`, `toBytes` is the 4-byte header `[protocol byte, leading `_`
count, delay, 0x00]` followed by the lines (leading `_` run stripped, split on `_`,
the FIRST `~` of each line replaced by `\R`, encoded, joined by single `0x0A`
separators); and the spec's concrete example holds. -/
theorem c1_toBytes_layout :
    (∀ p : Page,
      (p.animate = PageAnimate.NONE ∨ p.animate = PageAnimate.VSCROLL ∨
        p.animate = PageAnimate.HSCROLL) →
      p.delay ≤ 255 → leadingUnderscores p.text ≤ 255 →
      (∀ l ∈ splitSep '_' (p.text.drop (leadingUnderscores p.text)), encLineOk l) →
      Page.toBytes p = amendedToBytes p) ∧
    (Page.fromStr "V35^_Hello World".data PageAnimate.NONE 20).toBytes
      = [0x1D, 0x01, 35, 0x00, 0x48, 0x65, 0x6C, 0x6C, 0x6F, 0x20, 0x57, 0x6F, 0x72,
         0x6C, 0x64] :=
  ⟨fun _ h1 h2 h3 h4 => toBytes_eval h1 h2 h3 h4, by decide⟩

/-- C1 counterexample: the claim says EVERY `~` of a line is replaced by `\R`, but
`String.replace` with a string pattern replaces only the first occurrence: on the
page `(NONE, 20, "~~")` the second `~` has no encoding, leaving a hole that
`Buffer.from` coerces to `0x00`, while the claim's reading prescribes a second
`\R` escape. -/
theorem c1_toBytes_counterexample :
    Page.toBytes ⟨PageAnimate.NONE, 20, ['~', '~']⟩
      ≠ claimedToBytes ⟨PageAnimate.NONE, 20, ['~', '~']⟩ ∧
    Page.toBytes ⟨PageAnimate.NONE, 20, ['~', '~']⟩ = [0, 0, 20, 0, 0x5C, 0x52, 0] ∧
    claimedToBytes ⟨PageAnimate.NONE, 20, ['~', '~']⟩
      = [0, 0, 20, 0, 0x5C, 0x52, 0x5C, 0x52] :=
  ⟨by decide, by decide, by decide⟩

/-- C1 witness: the amended layout applied at the page `(VSCROLL, 35, "_Hello World")`. -/
theorem c1_toBytes_layout_witness :
    Page.toBytes ⟨PageAnimate.VSCROLL, 35, '_' :: "Hello World".data⟩
      = amendedToBytes ⟨PageAnimate.VSCROLL, 35, '_' :: "Hello World".data⟩ :=
  c1_toBytes_layout.1 ⟨PageAnimate.VSCROLL, 35, '_' :: "Hello World".data⟩
    (Or.inr (Or.inl rfl)) (by decide) (by decide) (by decide)

/-! ### Definitions for the round-trip claim -/

/-- Whether the two-character sequence `\R` occurs in a line. -/
def hasBR : List Char → Bool
  | [] => false
  | [_] => false
  | c :: d :: rest => if c = '\\' ∧ d = 'R' then true else hasBR (d :: rest)

/-- Not the right-justify marker. -/
def notTilde (c : Char) : Bool := c ≠ '~'

/-- A line that survives the decode side of the round trip: encodable, no `\R`
sequence before its `~`, and no trailing space. -/
def lineOk (l : List Char) : Prop :=
  encLineOk l ∧ hasBR (l.takeWhile notTilde) = false ∧ l.getLast? ≠ some ' '

instance (l : List Char) : Decidable (lineOk l) := by
  unfold lineOk; exact inferInstance

/-- A Page whose byte form decodes back to itself: one of the three animations,
delay and leading-`_` count within a byte, the text after its leading `_` run not
ending in `_`, and every line round-trip safe. -/
def Page.roundTripSafe (p : Page) : Prop :=
  (p.animate = PageAnimate.NONE ∨ p.animate = PageAnimate.VSCROLL ∨
    p.animate = PageAnimate.HSCROLL) ∧
  p.delay ≤ 255 ∧ leadingUnderscores p.text ≤ 255 ∧
  (p.text.drop (leadingUnderscores p.text)).getLast? ≠ some '_' ∧
  ∀ l ∈ splitSep '_' (p.text.drop (leadingUnderscores p.text)), lineOk l

instance (p : Page) : Decidable p.roundTripSafe := by
  unfold Page.roundTripSafe; exact inferInstance

/-! ### Split/join inverse lemmas -/

theorem splitLoop_ne_nil {α : Type} [DecidableEq α] (sep : α) :
    ∀ (xs line : List α), splitLoop sep xs line ≠ [] := by
  intro xs
  induction xs with
  | nil => intro line h; simp [splitLoop] at h
  | cons c rest ih =>
    intro line h
    simp only [splitLoop] at h
    by_cases hc : c = sep
    · rw [if_pos hc] at h; simp at h
    · rw [if_neg hc] at h; exact ih _ h

theorem joinSep_cons_ne {α : Type} (sep : α) (l : List α) {ls : List (List α)}
    (h : ls ≠ []) : joinSep sep (l :: ls) = l ++ sep :: joinSep sep ls := by
  cases ls with
  | nil => exact absurd rfl h
  | cons x xs => rfl

theorem joinSep_splitLoop {α : Type} [DecidableEq α] (sep : α) :
    ∀ (xs line : List α), joinSep sep (splitLoop sep xs line) = line ++ xs := by
  intro xs
  induction xs with
  | nil => intro line; simp [splitLoop, joinSep]
  | cons c rest ih =>
    intro line
    simp only [splitLoop]
    by_cases hc : c = sep
    · rw [if_pos hc, joinSep_cons_ne sep line (splitLoop_ne_nil sep rest []), ih []]
      simp [hc]
    · rw [if_neg hc, ih (line ++ [c])]
      simp

theorem splitLoop_no_sep {α : Type} [DecidableEq α] {sep : α} :
    ∀ {l : List α}, sep ∉ l → ∀ acc, splitLoop sep l acc = [acc ++ l] := by
  intro l
  induction l with
  | nil => intro _ acc; simp [splitLoop]
  | cons c rest ih =>
    intro h acc
    have hc : ¬(c = sep) := fun he => h (List.mem_cons.2 (Or.inl he.symm))
    simp only [splitLoop, if_neg hc]
    rw [ih (fun hm => h (List.mem_cons_of_mem _ hm)) (acc ++ [c])]
    simp

theorem splitLoop_chunk {α : Type} [DecidableEq α] {sep : α} :
    ∀ {l : List α}, sep ∉ l → ∀ (rest acc : List α),
      splitLoop sep (l ++ sep :: rest) acc = (acc ++ l) :: splitLoop sep rest [] := by
  intro l
  induction l with
  | nil => intro _ rest acc; simp [splitLoop]
  | cons c l2 ih =>
    intro h rest acc
    have hc : ¬(c = sep) := fun he => h (List.mem_cons.2 (Or.inl he.symm))
    simp only [List.cons_append, splitLoop, if_neg hc, List.append_eq]
    rw [ih (fun hm => h (List.mem_cons_of_mem _ hm)) rest (acc ++ [c])]
    simp

theorem splitSep_joinSep {α : Type} [DecidableEq α] (sep : α) :
    ∀ {ls : List (List α)}, ls ≠ [] → (∀ l ∈ ls, sep ∉ l) →
      splitSep sep (joinSep sep ls) = ls := by
  intro ls
  induction ls with
  | nil => intro h; exact absurd rfl h
  | cons l ls2 ih =>
    intro _ hsep
    cases ls2 with
    | nil =>
      show splitLoop sep (joinSep sep [l]) [] = [l]
      rw [show joinSep sep [l] = l from rfl,
        splitLoop_no_sep (hsep l (List.mem_cons_self _ _)) []]
      simp
    | cons x xs =>
      rw [joinSep_cons_ne sep l (by simp)]
      show splitLoop sep (l ++ sep :: joinSep sep (x :: xs)) [] = l :: x :: xs
      rw [splitLoop_chunk (hsep l (List.mem_cons_self _ _)) _ []]
      simp only [List.nil_append]
      have := ih (by simp) (fun y hy => hsep y (List.mem_cons_of_mem _ hy))
      exact congrArg (l :: ·) this

/-! ### Last-element and trimming lemmas -/

theorem joinSep_eq_nil_iff {α : Type} (sep : α) (ls : List (List α)) :
    joinSep sep ls = [] ↔ ls = [] ∨ ls = [[]] := by
  cases ls with
  | nil => simp [joinSep]
  | cons l ls2 =>
    cases ls2 with
    | nil => simp [joinSep]
    | cons x xs => simp [joinSep]

theorem getLast?_some_of_ne_nil {α : Type} {l : List α} (h : l ≠ []) :
    ∃ a, l.getLast? = some a :=
  Option.isSome_iff_exists.1 (List.getLast?_isSome.2 h)

theorem getLast?_joinSep {α : Type} (sep : α) :
    ∀ (ls : List (List α)) (l : List α), ls.getLast? = some l → l ≠ [] →
      (joinSep sep ls).getLast? = l.getLast? := by
  intro ls
  induction ls with
  | nil => intro l h; simp at h
  | cons l0 ls2 ih =>
    intro l h hne
    cases ls2 with
    | nil =>
      simp only [List.getLast?_singleton, Option.some_inj] at h
      subst h
      rfl
    | cons x xs =>
      have h2 : (x :: xs).getLast? = some l := by
        rw [← List.getLast?_cons_cons (a := l0)]
        exact h
      have hj : (sep :: joinSep sep (x :: xs)).getLast? = l.getLast? := by
        have hJne : joinSep sep (x :: xs) ≠ [] := by
          rw [Ne, joinSep_eq_nil_iff]
          rintro (h3 | h3)
          · cases h3
          · rw [h3] at h2
            simp at h2
            exact hne h2
        cases hJ : joinSep sep (x :: xs) with
        | nil => exact absurd hJ hJne
        | cons j js => rw [List.getLast?_cons_cons, ← hJ, ih l h2 hne]
      obtain ⟨a, ha⟩ := getLast?_some_of_ne_nil hne
      rw [joinSep_cons_ne sep l0 (by simp), List.getLast?_append, hj, ha]
      rfl

theorem getLast?_append_cons {α : Type} (a : List α) (c : α) (b : List α) :
    (a ++ c :: b).getLast? = (c :: b).getLast? := by
  obtain ⟨x, hx⟩ := getLast?_some_of_ne_nil (show (c :: b) ≠ [] by simp)
  rw [List.getLast?_append, hx]
  rfl

theorem rightTrim_eq_self {α : Type} [DecidableEq α] {sep : α} {xs : List α}
    (h : xs.getLast? ≠ some sep) :
    ((xs.reverse.dropWhile (fun b => b = sep)).reverse) = xs := by
  cases hx : xs.reverse with
  | nil =>
    have hnil : xs = [] := by simpa using congrArg List.reverse hx
    subst hnil; rfl
  | cons a t =>
    have ha : xs.getLast? = some a := by
      rw [← List.head?_reverse, hx]; rfl
    have hane : ¬(a = sep) := fun he => h (ha.trans (by rw [he]))
    rw [List.dropWhile_cons, if_neg (by simpa using hane), ← hx,
      List.reverse_reverse]

/-! ### First-occurrence replacement lemmas -/

theorem replaceFirstTilde_eq_nil_iff (l : List Char) :
    replaceFirstTilde l = [] ↔ l = [] := by
  cases l with
  | nil => simp [replaceFirstTilde]
  | cons c rest => by_cases hc : c = '~' <;> simp [replaceFirstTilde, hc]

theorem replaceFirstTilde_no_tilde : ∀ {l : List Char}, ('~' : Char) ∉ l →
    replaceFirstTilde l = l := by
  intro l
  induction l with
  | nil => intro _; rfl
  | cons c rest ih =>
    intro h
    have hc : ¬(c = '~') := fun he => h (List.mem_cons.2 (Or.inl he.symm))
    simp [replaceFirstTilde, hc, ih (fun hm => h (List.mem_cons_of_mem _ hm))]

theorem replaceFirstTilde_split : ∀ {a : List Char}, ('~' : Char) ∉ a → ∀ b,
    replaceFirstTilde (a ++ '~' :: b) = a ++ '\\' :: 'R' :: b := by
  intro a
  induction a with
  | nil => intro _ b; simp [replaceFirstTilde]
  | cons c a2 ih =>
    intro h b
    have hc : ¬(c = '~') := fun he => h (List.mem_cons.2 (Or.inl he.symm))
    simp only [List.cons_append, replaceFirstTilde, if_neg hc, List.append_eq]
    rw [ih (fun hm => h (List.mem_cons_of_mem _ hm)) b]

theorem takeWhile_all {α : Type} {p : α → Bool} : ∀ {l : List α}, (∀ x ∈ l, p x) →
    l.takeWhile p = l := by
  intro l
  induction l with
  | nil => intro _; rfl
  | cons c rest ih =>
    intro h
    rw [List.takeWhile_cons, if_pos (h c (List.mem_cons_self _ _)),
      ih (fun x hx => h x (List.mem_cons_of_mem _ hx))]

theorem dropWhile_head_false {α : Type} {p : α → Bool} :
    ∀ {l : List α} {d : α} {rest : List α}, l.dropWhile p = d :: rest → p d = false := by
  intro l
  induction l with
  | nil => intro d rest h; simp at h
  | cons c cs ih =>
    intro d rest h
    rw [List.dropWhile_cons] at h
    by_cases hc : p c
    · rw [if_pos hc] at h; exact ih h
    · rw [if_neg hc] at h
      cases h
      simpa using hc

theorem first_tilde_decomp {l : List Char} (h : ('~' : Char) ∈ l) :
    ∃ a b, l = a ++ '~' :: b ∧ ('~' : Char) ∉ a ∧ a = l.takeWhile notTilde := by
  have hne : l.dropWhile notTilde ≠ [] := by
    rw [Ne, List.dropWhile_eq_nil_iff]
    intro hall
    have := hall '~' h
    simp [notTilde] at this
  obtain ⟨d, rest, hd⟩ := List.exists_cons_of_ne_nil hne
  have hdT : d = '~' := by
    have := dropWhile_head_false hd
    simpa [notTilde] using this
  refine ⟨l.takeWhile notTilde, rest, ?_, ?_, rfl⟩
  · conv_lhs => rw [← List.takeWhile_append_dropWhile notTilde l]
    rw [hd, hdT]
  · intro hm
    have := List.mem_takeWhile_imp hm
    simp [notTilde] at this

theorem replaceFirstBR_no_BR : ∀ {l : List Char}, hasBR l = false →
    replaceFirstBR l = l := by
  intro l
  induction l with
  | nil => intro _; rfl
  | cons c rest ih =>
    intro h
    cases rest with
    | nil => rfl
    | cons d rest2 =>
      simp only [hasBR] at h
      split at h
      · cases h
      · rename_i hcd
        simp only [replaceFirstBR, if_neg hcd]
        rw [ih h]

theorem replaceFirstBR_insert : ∀ {a : List Char}, hasBR a = false → ∀ b,
    replaceFirstBR (a ++ '\\' :: 'R' :: b) = a ++ '~' :: b := by
  intro a
  induction a with
  | nil => intro _ b; simp [replaceFirstBR]
  | cons c a2 ih =>
    intro h b
    cases a2 with
    | nil =>
      simp [replaceFirstBR]
    | cons d a3 =>
      simp only [hasBR] at h
      split at h
      · cases h
      · rename_i hcd
        simp only [List.cons_append, replaceFirstBR, if_neg hcd, List.append_eq]
        have := ih h b
        simp only [List.cons_append] at this
        rw [this]

/-! ### Per-line round-trip -/

theorem jsRTS_eq_self {l : List Char} (h : l.getLast? ≠ some ' ') :
    jsReplaceTrailingSpaces l = l := by
  have hcond : l.reverse.takeWhile (fun c => c = ' ') = [] := by
    cases hx : l.reverse with
    | nil => rfl
    | cons a t =>
      have ha : l.getLast? = some a := by rw [← List.head?_reverse, hx]; rfl
      have hane : ¬(a = ' ') := fun he => h (ha.trans (by rw [he]))
      rw [List.takeWhile_cons, if_neg (by simpa using hane)]
  simp [jsReplaceTrailingSpaces, hcond]

theorem decodeText_encBytes {l : List Char}
    (h : ∀ c ∈ l, ∃ b, TEXT_ENCODING c = some b) :
    Page.decodeText (l.map (fun c => (TEXT_ENCODING c).getD 0)) = l := by
  rw [decodeText_eq_map, List.map_map]
  conv_rhs => rw [← List.map_id l]
  apply List.map_congr_left
  intro c hc
  obtain ⟨b, hb⟩ := h c hc
  simp [Function.comp, hb, decode_encode hb]

theorem processLine_inverse {l : List Char} (h : lineOk l) :
    replaceFirstBR (jsReplaceTrailingSpaces (Page.decodeText
      ((replaceFirstTilde l).map (fun c => (TEXT_ENCODING c).getD 0)))) = l := by
  obtain ⟨hEnc, hBR, hSpace⟩ := h
  rw [decodeText_encBytes (replaceFirstTilde_encodable hEnc.1 hEnc.2)]
  have hlast : (replaceFirstTilde l).getLast? ≠ some ' ' := by
    by_cases hmem : ('~' : Char) ∈ l
    · obtain ⟨a, b, hl, hna, _⟩ := first_tilde_decomp hmem
      rw [hl, replaceFirstTilde_split hna b]
      cases b with
      | nil =>
        rw [getLast?_append_cons]
        decide
      | cons d bs =>
        rw [getLast?_append_cons, List.getLast?_cons_cons]
        rw [hl, getLast?_append_cons, List.getLast?_cons_cons] at hSpace
        exact hSpace
    · rw [replaceFirstTilde_no_tilde hmem]
      exact hSpace
  rw [jsRTS_eq_self hlast]
  by_cases hmem : ('~' : Char) ∈ l
  · obtain ⟨a, b, hl, hna, ha⟩ := first_tilde_decomp hmem
    have hBRa : hasBR a = false := by rw [ha]; exact hBR
    rw [hl, replaceFirstTilde_split hna b, replaceFirstBR_insert hBRa b]
  · rw [replaceFirstTilde_no_tilde hmem]
    have hall : ∀ x ∈ l, notTilde x := by
      intro x hx
      simp only [notTilde, decide_eq_true_eq]
      intro he
      exact hmem (he ▸ hx)
    rw [takeWhile_all hall] at hBR
    exact replaceFirstBR_no_BR hBR

/-! ### fromBytes evaluation -/

theorem animate_decode_protocol {a : PageAnimate}
    (h : a = PageAnimate.NONE ∨ a = PageAnimate.VSCROLL ∨ a = PageAnimate.HSCROLL) :
    ANIMATE_DECODING (protocolByte a) = some a := by
  rcases h with h | h | h <;> rw [h] <;> decide

theorem fromBytes_cons_eval {a : PageAnimate} {pb : Nat}
    (hA : ANIMATE_DECODING pb = some a) (off delay : Nat) (body : List Nat) :
    Page.fromBytes (pb :: off :: delay :: 0 :: body) = .ok ⟨a, delay,
      List.replicate off '_' ++ joinSep '_'
        ((splitSep 0x0A ((body.reverse.dropWhile (fun b => b = 0x0A)).reverse)).map
          (fun l => replaceFirstBR (jsReplaceTrailingSpaces (Page.decodeText l))))⟩ := by
  have hlen : ¬((pb :: off :: delay :: 0 :: body).length < 4) := by
    simp only [List.length_cons]
    omega
  have h0 : (pb :: off :: delay :: 0 :: body).getD 0 0 = pb := rfl
  have h3 : (pb :: off :: delay :: 0 :: body).getD 3 0 = 0 := rfl
  have h1 : (pb :: off :: delay :: 0 :: body).getD 1 0 = off := rfl
  have h2 : (pb :: off :: delay :: 0 :: body).getD 2 0 = delay := rfl
  have hdrop : (pb :: off :: delay :: 0 :: body).drop 4 = body := rfl
  simp only [Page.fromBytes, if_neg hlen, h0, h1, h2, h3, hA, hdrop, ne_eq,
    not_true_eq_false, if_neg]
  simp

theorem drop_takeWhile_length {α : Type} (p : α → Bool) : ∀ t : List α,
    t.drop (t.takeWhile p).length = t.dropWhile p := by
  intro t
  induction t with
  | nil => rfl
  | cons c rest ih =>
    rw [List.takeWhile_cons, List.dropWhile_cons]
    by_cases hc : p c
    · rw [if_pos hc, if_pos hc]
      simpa using ih
    · rw [if_neg hc, if_neg hc]
      rfl

theorem text_decomp (t : List Char) :
    t = List.replicate (leadingUnderscores t) '_' ++ t.drop (leadingUnderscores t) := by
  have h1 : t.takeWhile (fun c => c = '_') = List.replicate (leadingUnderscores t) '_' := by
    rw [List.eq_replicate_iff]
    refine ⟨rfl, ?_⟩
    intro b hb
    have := List.mem_takeWhile_imp hb
    simpa using this
  have h2 : t.drop (leadingUnderscores t) = t.dropWhile (fun c => c = '_') :=
    drop_takeWhile_length _ t
  rw [h2, ← h1, List.takeWhile_append_dropWhile]

theorem splitLoop_getLast_ne_nil {α : Type} [DecidableEq α] (sep : α) :
    ∀ (xs acc : List α), xs.getLast? ≠ some sep → (acc ≠ [] ∨ xs ≠ []) →
      (splitLoop sep xs acc).getLast? ≠ some [] := by
  intro xs
  induction xs with
  | nil =>
    intro acc h hne
    have hacc : acc ≠ [] := by
      rcases hne with h1 | h1
      · exact h1
      · exact absurd rfl h1
    simp only [splitLoop, List.getLast?_singleton]
    intro hcontra
    exact hacc (by simpa using hcontra)
  | cons c rest ih =>
    intro acc h hne
    simp only [splitLoop]
    by_cases hc : c = sep
    · rw [if_pos hc]
      have hrest : rest ≠ [] := by
        intro hr
        subst hr
        subst hc
        simp at h
      have hlast : rest.getLast? ≠ some sep := by
        cases rest with
        | nil => exact absurd rfl hrest
        | cons r rs =>
          rw [← List.getLast?_cons_cons (a := c)]
          exact h
      cases hS : splitLoop sep rest [] with
      | nil => exact absurd hS (splitLoop_ne_nil sep rest [])
      | cons s ss =>
        rw [List.getLast?_cons_cons, ← hS]
        exact ih [] hlast (Or.inr hrest)
    · rw [if_neg hc]
      cases hrest : rest with
      | nil =>
        subst hrest
        have hc2 : (c :: ([] : List α)).getLast? = some c := rfl
        simp only [splitLoop, List.getLast?_singleton]
        intro hcontra
        simp at hcontra
      | cons r rs =>
        rw [hrest] at ih h
        refine ih (acc ++ [c]) ?_ (Or.inl (by simp))
        rw [List.getLast?_cons_cons] at h
        exact h

theorem mem_of_getLast?_eq {α : Type} {l : List α} {a : α} (h : l.getLast? = some a) :
    a ∈ l := by
  cases l with
  | nil => simp at h
  | cons c cs =>
    have hmem := List.getLast_mem (show c :: cs ≠ [] by simp)
    rw [List.getLast?_eq_getLast _ (show c :: cs ≠ [] by simp), Option.some_inj] at h
    rw [← h]
    exact hmem

/-- The decode side of `Page.fromBytes` reconstructs the original text from the
(amended) body produced by `Page.toBytes`, for round-trip safe text. -/
theorem reconstruct_text {t : List Char}
    (hOffLast : (t.drop (leadingUnderscores t)).getLast? ≠ some '_')
    (hLines : ∀ l ∈ splitSep '_' (t.drop (leadingUnderscores t)), lineOk l) :
    List.replicate (leadingUnderscores t) '_' ++ joinSep '_'
      ((splitSep 0x0A (((joinSep 0x0A ((splitSep '_' (t.drop (leadingUnderscores t))).map
        (fun l => (replaceFirstTilde l).map (fun c => (TEXT_ENCODING c).getD 0)))).reverse.dropWhile
        (fun b => b = 0x0A)).reverse)).map
      (fun l => replaceFirstBR (jsReplaceTrailingSpaces (Page.decodeText l)))) = t := by
  by_cases hS : t.drop (leadingUnderscores t) = []
  · rw [hS]
    have h1 : (splitSep '_' ([] : List Char)) = [[]] := rfl
    rw [h1]
    have h2 : ([[]] : List (List Char)).map
        (fun l => (replaceFirstTilde l).map (fun c => (TEXT_ENCODING c).getD 0)) = [[]] := rfl
    rw [h2]
    have h3 : joinSep 0x0A ([[]] : List (List Nat)) = [] := rfl
    rw [h3]
    have h4 : ((([] : List Nat).reverse.dropWhile (fun b => b = 0x0A)).reverse) = [] := rfl
    rw [h4]
    have h5 : splitSep 0x0A ([] : List Nat) = [[]] := rfl
    rw [h5]
    have h6 : ([[]] : List (List Nat)).map
        (fun l => replaceFirstBR (jsReplaceTrailingSpaces (Page.decodeText l))) = [[]] := rfl
    rw [h6]
    have h7 : joinSep '_' ([[]] : List (List Char)) = [] := rfl
    rw [h7, List.append_nil]
    conv_rhs => rw [text_decomp t, hS]
    rw [List.append_nil]
  · have hLne : splitSep '_' (t.drop (leadingUnderscores t)) ≠ [] :=
      splitLoop_ne_nil _ _ _
    have hLlast : (splitSep '_' (t.drop (leadingUnderscores t))).getLast? ≠ some [] :=
      splitLoop_getLast_ne_nil '_' _ [] hOffLast (Or.inr hS)
    obtain ⟨lastL, hlastL⟩ := getLast?_some_of_ne_nil hLne
    have hlastLne : lastL ≠ [] := fun he => hLlast (by rw [hlastL, he])
    have hlastLmem : lastL ∈ splitSep '_' (t.drop (leadingUnderscores t)) :=
      mem_of_getLast?_eq hlastL
    have hencode : ∀ l ∈ splitSep '_' (t.drop (leadingUnderscores t)),
        ∀ b ∈ (replaceFirstTilde l).map (fun c => (TEXT_ENCODING c).getD 0), b ≠ 0x0A := by
      intro l hl b hb
      obtain ⟨c, hc, hcb⟩ := List.mem_map.1 hb
      obtain ⟨b2, hb2⟩ :=
        replaceFirstTilde_encodable (hLines l hl).1.1 (hLines l hl).1.2 c hc
      rw [← hcb, hb2]
      simpa using encode_ne_newline hb2
    have hmapLast : ((splitSep '_' (t.drop (leadingUnderscores t))).map
        (fun l => (replaceFirstTilde l).map (fun c => (TEXT_ENCODING c).getD 0))).getLast?
        = some ((replaceFirstTilde lastL).map (fun c => (TEXT_ENCODING c).getD 0)) := by
      rw [List.getLast?_map, hlastL]
      rfl
    have hencLastNe :
        (replaceFirstTilde lastL).map (fun c => (TEXT_ENCODING c).getD 0) ≠ [] := by
      rw [Ne, List.map_eq_nil_iff, replaceFirstTilde_eq_nil_iff]
      exact hlastLne
    have hBodyLast : (joinSep 0x0A ((splitSep '_' (t.drop (leadingUnderscores t))).map
        (fun l => (replaceFirstTilde l).map (fun c => (TEXT_ENCODING c).getD 0)))).getLast?
        ≠ some 0x0A := by
      rw [getLast?_joinSep 0x0A _ _ hmapLast hencLastNe]
      intro hcontra
      exact hencode lastL hlastLmem 0x0A (mem_of_getLast?_eq hcontra) rfl
    rw [rightTrim_eq_self hBodyLast]
    rw [splitSep_joinSep 0x0A (by simpa using hLne) ?sepFree]
    case sepFree =>
      intro l' hl'
      obtain ⟨l, hl, hll⟩ := List.mem_map.1 hl'
      intro hmem10
      exact hencode l hl 0x0A (hll ▸ hmem10) rfl
    rw [List.map_map]
    have hproc : (splitSep '_' (t.drop (leadingUnderscores t))).map
        ((fun l => replaceFirstBR (jsReplaceTrailingSpaces (Page.decodeText l))) ∘
         (fun l => (replaceFirstTilde l).map (fun c => (TEXT_ENCODING c).getD 0)))
        = (splitSep '_' (t.drop (leadingUnderscores t))).map id := by
      apply List.map_congr_left
      intro l hl
      exact processLine_inverse (hLines l hl)
    rw [hproc, List.map_id]
    have hjs := joinSep_splitLoop '_' (t.drop (leadingUnderscores t)) []
    rw [show splitSep '_' (t.drop (leadingUnderscores t))
        = splitLoop '_' (t.drop (leadingUnderscores t)) [] from rfl, hjs, List.nil_append]
    exact (text_decomp t).symm

/-! ### Claim C2 -/

/-- C2 (amended): for a validly constructed Page (one of the three animations,
delay 0..255, permitted characters plus `~` and `_`) the byte round trip
reproduces the page, provided additionally that the leading-`_` count fits a byte,
the text after its leading `_` run does not end in `_` (trailing empty display
lines are trimmed on decode), no line ends in a space (the decoder's
`replace(/ +$/)` is called without a replacement and appends `"undefined"`), each
line has at most one `~`, and no line contains the pair `\R` before its `~`
(decoding turns the first `\R` back into `~`). -/
theorem c2_roundtrip_amended :
    ∀ p : Page, p.roundTripSafe → Page.fromBytes (Page.toBytes p) = .ok p := by
  intro p hp
  obtain ⟨hAnim, hDelay, hOff, hLast, hLines⟩ := hp
  rw [toBytes_eval hAnim hDelay hOff (fun l hl => (hLines l hl).1)]
  unfold amendedToBytes
  rw [fromBytes_cons_eval (animate_decode_protocol hAnim)]
  rw [reconstruct_text hLast hLines]

/-- C2 counterexample: the page `(NONE, 20, "a_")` is validly constructed, its text
has no non-canonical-byte cases, yet the round trip yields text `"a"`: the encoder
writes the trailing empty line as a trailing `0x0A`, which the decoder right-trims
away. -/
theorem c2_roundtrip_counterexample :
    (∀ c ∈ (['a', '_'] : List Char), c ∈ PERMITTED_CHARS ∨ c = '~' ∨ c = '_') ∧
    Page.fromBytes (Page.toBytes ⟨PageAnimate.NONE, 20, ['a', '_']⟩)
      = .ok ⟨PageAnimate.NONE, 20, ['a']⟩ ∧
    Page.fromBytes (Page.toBytes ⟨PageAnimate.NONE, 20, ['a', '_']⟩)
      ≠ .ok ⟨PageAnimate.NONE, 20, ['a', '_']⟩ :=
  ⟨by decide, by decide, by decide⟩

/-- C2 witness: the round trip applied at the FUNKYTOWN page. -/
theorem c2_roundtrip_amended_witness :
    Page.fromBytes (Page.toBytes
      ⟨PageAnimate.VSCROLL, 40, "12:34 FUNKYTOWN~5_Limited Express".data⟩)
      = .ok ⟨PageAnimate.VSCROLL, 40, "12:34 FUNKYTOWN~5_Limited Express".data⟩ :=
  c2_roundtrip_amended ⟨PageAnimate.VSCROLL, 40, "12:34 FUNKYTOWN~5_Limited Express".data⟩
    (by decide)
